import Mathlib

/-!
Verification of the `maker` command-runner and shutdown-coordinator module
(`src/index.js`, the variant exporting `init, run, onExit, prompt, spinner,
save, load`; `run` at lines 203-286, `onExit` at lines 288-322).

JavaScript strings are modelled as `List Char`; the regex-based helpers of
the source are translated char-by-char below, with the source line cited at
each definition.
-/

namespace Maker

abbrev JsString := List Char

/-- Model of `trimmed.split(/\r?\n/)` (src/index.js line 226): scan left to
right; a CR-LF pair or a bare LF is a separator, any other character
(including a lone CR) belongs to the current line. -/
def splitOnNewlines : JsString → List JsString
  | [] => [[]]
  | '\r' :: '\n' :: rest => [] :: splitOnNewlines rest
  | '\n' :: rest => [] :: splitOnNewlines rest
  | c :: rest =>
      match splitOnNewlines rest with
      | [] => [[c]]
      | l :: ls => (c :: l) :: ls

/-- Helper for the model of `s.replace(/(?:\r?\n)+$/g, '')`: working from
the end of the string (hence on the reversed list), repeatedly remove a
final CR-LF pair or a final bare LF. -/
def stripNewlinesRev : JsString → JsString
  | '\n' :: '\r' :: rest => stripNewlinesRev rest
  | '\n' :: rest => stripNewlinesRev rest
  | l => l

/-- Model of `s.replace(/(?:\r?\n)+$/g, '')` (src/index.js line 225):
remove the longest trailing run made of LF / CR-LF units. -/
def stripTrailingNewlines (s : JsString) : JsString :=
  (stripNewlinesRev s.reverse).reverse

/-- Last character of a JavaScript string, if any. -/
def lastChar (s : JsString) : Option Char :=
  s.reverse.head?

/-- Model of `/(?:\r?\n)$/.test(s)` (src/index.js line 224): the string
ends with LF (an optional CR before it does not change the test). -/
def endsWithNewline (s : JsString) : Bool :=
  lastChar s == some '\n'

/-- Model of `lines.slice(-n).join('\n')` joining step
(src/index.js line 228). -/
def joinWithNewlines : List JsString → JsString
  | [] => []
  | [l] => l
  | l :: ls => l ++ '\n' :: joinWithNewlines ls

/-- Model of `trimToLastNLines(s, n)` (src/index.js lines 221-230): on a
non-empty string, record whether it ended with a newline, strip the
trailing newline run, split into lines; if the line count is within `n`
re-emit the stripped string, otherwise keep only the last `n` lines joined
with LF; finally re-append a single LF when the input ended with one. -/
def trimToLastNLines (s : JsString) (n : Nat) : JsString :=
  if s = [] then s
  else
    let hadTrailingNewline := endsWithNewline s
    let trimmed := stripTrailingNewlines s
    let lines := splitOnNewlines trimmed
    if lines.length ≤ n then
      if hadTrailingNewline then trimmed ++ ['\n'] else trimmed
    else
      let out := joinWithNewlines (lines.drop (lines.length - n))
      if hadTrailingNewline then out ++ ['\n'] else out

/-! ### The streaming capture of `run` (src/index.js lines 232-285)

One invocation of `run` owns two accumulating buffers (`stdout`, `stderr`,
lines 235-236). Each `data` event appends the chunk to its stream's buffer
and, when the buffer's newline-match count exceeds `maxLines`, replaces the
buffer with its last `maxLines` lines (lines 239-260). The promise is
resolved by the first `error` or `close` event (lines 262-284); both
handlers only ever call `resolve`, never `reject`, so resolution is a total
function of the buffers and the terminal event. -/

/-- Which of the child's two piped streams a data chunk arrived on. -/
inductive StreamTag
  | stdoutStream
  | stderrStream
deriving DecidableEq, Repr

/-- One `data` event: the stream it arrived on and the chunk text
(`chunk.toString()`, src/index.js lines 240-241 and 252-253). -/
structure Chunk where
  tag : StreamTag
  data : JsString
deriving DecidableEq, Repr

/-- Model of `(s.match(/\r?\n/g) || []).length` (src/index.js lines 244 and
255): every LF belongs to exactly one match of `/\r?\n/g` (with or without
a preceding CR), so the match count is the number of LF characters. -/
def countNewlineMatches (s : JsString) : Nat :=
  (s.filter (fun c => c = '\n')).length

/-- Model of one stream's `data` handler body (src/index.js lines 240-246
for stdout, 252-258 for stderr): append the chunk, then trim the buffer to
the last `maxLines` lines when its newline-match count exceeds
`maxLines`. -/
def dataStep (maxLines : Nat) (buf chunk : JsString) : JsString :=
  let b := buf ++ chunk
  if maxLines < countNewlineMatches b then trimToLastNLines b maxLines else b

/-- The pair of capture buffers of one `run` invocation
(src/index.js lines 235-236; both start empty). -/
structure Buffers where
  stdout : JsString
  stderr : JsString
deriving DecidableEq, Repr

/-- Dispatch of one `data` event to the buffer of its stream. -/
def streamStep (maxLines : Nat) (bufs : Buffers) (c : Chunk) : Buffers :=
  match c.tag with
  | .stdoutStream => { bufs with stdout := dataStep maxLines bufs.stdout c.data }
  | .stderrStream => { bufs with stderr := dataStep maxLines bufs.stderr c.data }

/-- Buffer contents after a sequence of `data` events delivered before the
terminal event. -/
def streamAll (maxLines : Nat) (chunks : List Chunk) : Buffers :=
  chunks.foldl (streamStep maxLines) ⟨[], []⟩

/-- The complete, untrimmed text a stream delivered: the concatenation of
its chunks in arrival order. -/
def fullStream (t : StreamTag) : List Chunk → JsString
  | [] => []
  | c :: cs => (if c.tag = t then c.data else []) ++ fullStream t cs

/-- The error object carried by the spawn `error` event
(src/index.js line 262). -/
structure SpawnError where
  message : String
deriving DecidableEq, Repr

/-- The event that settles the promise of one `run` invocation: a spawn
`error` event (line 262) or a `close` event carrying the exit code, which
Node reports as a number or null (line 274). -/
inductive Terminal
  | errorEvt (e : SpawnError)
  | close (code : Option Int)
deriving DecidableEq, Repr

/-- The structure `run` resolves with (src/index.js lines 264-271 and
276-283). `code` and `error` use `Option` for the JavaScript null. -/
structure RunResult where
  output : JsString
  stdout : JsString
  stderr : JsString
  code : Option Int
  isError : Bool
  error : Option SpawnError
deriving DecidableEq, Repr

/-- Model of the two resolution handlers (src/index.js lines 262-284). The
`error` handler resolves with the raw buffers; the `close` handler trims
the separated `stdout`/`stderr` fields one final time but builds `output`
from the untrimmed-at-close buffers, and sets `isError` to
`code !== 0`. -/
def resolveTerminal (maxLines : Nat) (bufs : Buffers) : Terminal → RunResult
  | .errorEvt e =>
      { output := bufs.stdout ++ bufs.stderr
        stdout := bufs.stdout
        stderr := bufs.stderr
        code := none
        isError := true
        error := some e }
  | .close c =>
      { output := bufs.stdout ++ bufs.stderr
        stdout := trimToLastNLines bufs.stdout maxLines
        stderr := trimToLastNLines bufs.stderr maxLines
        code := c
        isError := c != some 0
        error := none }

/-- The `RunResult` one invocation of `run` resolves with, as a function of
the delivered data chunks and the terminal event. -/
def runFinal (maxLines : Nat) (chunks : List Chunk) (t : Terminal) : RunResult :=
  resolveTerminal maxLines (streamAll maxLines chunks) t

/-! ### Argument validation and option forwarding of `run`
(src/index.js lines 203-219) -/

/-- A JavaScript value passed as the `command` argument. -/
inductive JsValue
  | str (s : JsString)
  | num (n : Int)
  | boolean (b : Bool)
  | nullLit
  | undef
deriving DecidableEq, Repr

/-- The whitespace characters removed by `String.prototype.trim`
(space, tab, LF, CR, vertical tab, form feed). -/
def jsWhitespace (c : Char) : Bool :=
  c = ' ' || c = '\t' || c = '\n' || c = '\r' || c = '\x0b' || c = '\x0c'

/-- Model of `command.trim()` (src/index.js line 204). -/
def jsTrim (s : JsString) : JsString :=
  ((s.dropWhile jsWhitespace).reverse.dropWhile jsWhitespace).reverse

/-- Model of the validation test at src/index.js line 204: the command
passes iff it is a string that is non-empty after whitespace trimming
(`typeof command !== 'string' || !command.trim()` rejects). -/
def isValidCommand : JsValue → Bool
  | .str s => !(jsTrim s).isEmpty
  | _ => false

/-- A value stored in the options object handed to `run` and forwarded to
`spawn`. -/
inductive JsOptValue
  | boolean (b : Bool)
  | str (s : String)
  | num (n : Int)
  | undef
deriving DecidableEq, Repr

/-- An options object, as the partial map from field names to values. -/
def JsOptions : Type := String → Option JsOptValue

/-- The empty options object `{}` (the default for `opts`,
src/index.js line 203). -/
def emptyOpts : JsOptions := fun _ => none

/-- Model of `const { maxLines = 10000, ...forwardedOpts } = opts`
(src/index.js line 209): every field except `maxLines` is forwarded. -/
def forwardedOpts (opts : JsOptions) : JsOptions :=
  fun k => if k = "maxLines" then none else opts k

/-- The default spawn configuration `{ shell: true, stdio: 'pipe' }`
(src/index.js line 217). -/
def defaultSpawnOpts : JsOptions :=
  fun k =>
    if k = "shell" then some (.boolean true)
    else if k = "stdio" then some (.str "pipe")
    else none

/-- Model of `Object.assign({ shell: true, stdio: 'pipe' }, forwardedOpts)`
(src/index.js lines 216-219): a forwarded caller field wins over the
default for the same key. -/
def spawnOpts (opts : JsOptions) : JsOptions :=
  fun k =>
    match forwardedOpts opts k with
    | some v => some v
    | none => defaultSpawnOpts k

/-- The error kinds `run` and `onExit` raise on malformed arguments. -/
inductive JsErrorKind
  | typeError (msg : String)
deriving DecidableEq, Repr

/-- The request `run` hands to the spawn facility when validation passes:
`spawn(command, spawnOpts)` (src/index.js line 233). -/
structure SpawnRequest where
  command : JsValue
  options : JsOptions

/-- The part of `run`'s body up to the spawn call (src/index.js
lines 204-219 and 233): an invalid command raises the `TypeError` of
line 205 before any spawn request exists; a valid one produces the spawn
request. -/
def runPhase1 (command : JsValue) (opts : JsOptions) :
    Except JsErrorKind SpawnRequest :=
  if isValidCommand command then
    .ok ⟨command, spawnOpts opts⟩
  else
    .error (.typeError "run() requires a non-empty string command")

/-- Whether the pre-spawn phase reached a spawn request. -/
def reachesSpawn (command : JsValue) (opts : JsOptions) : Bool :=
  match runPhase1 command opts with
  | .ok _ => true
  | .error _ => false

/-- The settled state of a JavaScript promise. -/
inductive PromiseOutcome (α : Type)
  | resolvedWith (a : α)
  | rejected (e : JsErrorKind)

/-- What a JavaScript function call delivers to its caller: either an
exception thrown synchronously at the call site, or a returned promise. -/
inductive CallOutcome (α : Type)
  | syncThrow (e : JsErrorKind)
  | returnedPromise (p : PromiseOutcome α)

/-- Whether a call outcome is a synchronous throw. -/
def CallOutcome.isSyncThrow : CallOutcome α → Bool
  | .syncThrow _ => true
  | .returnedPromise _ => false

/-- Model of calling `run(command, opts)` observed up to the spawn point.
Since `run` is declared `async function` (src/index.js line 203), an
exception thrown in its body is delivered as a rejection of the returned
promise, never as a synchronous throw at the call site (the repository's
own test suite asserts `await expect(run('')).rejects.toThrow(TypeError)`,
src/test/index.test.js lines 22-29). -/
def runCall (command : JsValue) (opts : JsOptions) : CallOutcome SpawnRequest :=
  .returnedPromise
    (match runPhase1 command opts with
     | .ok r => .resolvedWith r
     | .error e => .rejected e)

/-! ### The shutdown coordinator `onExit` (src/index.js lines 288-322) -/

/-- The three termination signals one `onExit` registration listens to
(src/index.js lines 313-315). -/
inductive Signal
  | sigint
  | sigterm
  | sigquit
deriving DecidableEq, Repr

/-- The signals the handler of one registration is attached to. -/
def registeredSignals : List Signal := [.sigint, .sigterm, .sigquit]

/-- The per-registration state: the `called` latch of src/index.js
line 293, plus a count of how many times the handler body past the latch
has run (for stating the exactly-once property). -/
structure HandlerState where
  called : Bool
  bodyRuns : Nat
deriving DecidableEq, Repr

/-- The state of one registration before any signal arrives. -/
def initialHandlerState : HandlerState := ⟨false, 0⟩

/-- Model of delivering one signal to the handler (src/index.js
lines 295-297): a signal the handler is not attached to does not reach it;
otherwise, if the latch is set the delivery is a no-op, and if not the
latch is set synchronously, before the callback's awaitable is awaited, so
any later delivery (even one arriving while the awaitable is pending)
observes the latch. The body then runs once. -/
def deliverSignal (st : HandlerState) (sig : Signal) : HandlerState :=
  if sig ∈ registeredSignals then
    if st.called then st
    else { called := true, bodyRuns := st.bodyRuns + 1 }
  else st

/-- The handler state after a sequence of signal deliveries. -/
def deliverAll (sigs : List Signal) : HandlerState :=
  sigs.foldl deliverSignal initialHandlerState

/-- How a registered callback can behave when the handler invokes it
(src/index.js line 302): return a plain value, return a resolving
awaitable, throw synchronously, or return a rejecting awaitable. -/
inductive CbBehavior
  | retValue
  | retResolved
  | throwSync (e : String)
  | retRejected (e : String)
deriving DecidableEq, Repr

/-- Model of `await Promise.resolve(cb())` inside the `try`
(src/index.js line 302): plain returns and resolving awaitables produce a
normal outcome; a synchronous throw and a rejecting awaitable both surface
as an exception at the `await`. -/
def awaitedOutcome : CbBehavior → Except String Unit
  | .retValue => .ok ()
  | .retResolved => .ok ()
  | .throwSync e => .error e
  | .retRejected e => .error e

/-- The observable effects of one firing of the handler body. -/
structure HandlerRun where
  loggedError : Option String
  exitStatus : Nat
  raised : Option String
deriving DecidableEq, Repr

/-- Model of the handler body past the latch (src/index.js lines 299-310):
`try { await Promise.resolve(cb()) } catch (err) { console.error(...) }
finally { ...; process.exit(0) }`. The `catch` absorbs every callback
failure and logs it, so nothing propagates out of the handler, and the
`finally` exits the process with status 0 in every case. -/
def handlerRun (b : CbBehavior) : HandlerRun :=
  match awaitedOutcome b with
  | .ok () => { loggedError := none, exitStatus := 0, raised := none }
  | .error e => { loggedError := some e, exitStatus := 0, raised := none }


/-! ### Basic facts about the string helpers -/

theorem splitOnNewlines_ne_nil (s : JsString) : splitOnNewlines s ≠ [] := by
  induction s using splitOnNewlines.induct with
  | case1 => simp [splitOnNewlines]
  | case2 rest ih => simp [splitOnNewlines]
  | case3 rest ih => simp [splitOnNewlines]
  | case4 c rest h1 h2 hsplit ih => exact absurd hsplit ih
  | case5 c rest h1 h2 l ls hsplit ih =>
      rw [splitOnNewlines.eq_def]
      split
      · simp
      · simp
      · simp
      · rename_i cc rr hg1 hg2 heq
        split <;> simp

theorem splitOnNewlines_default (c : Char) (rest : JsString) (h2 : c ≠ '\n')
    (h1 : ¬(c = '\r' ∧ rest.head? = some '\n')) (l : JsString) (ls : List JsString)
    (hsplit : splitOnNewlines rest = l :: ls) :
    splitOnNewlines (c :: rest) = (c :: l) :: ls := by
  rw [splitOnNewlines.eq_def]
  split
  · simp_all
  · rename_i r heq
    rw [List.cons.injEq] at heq
    exact absurd ⟨heq.1, by simp [heq.2]⟩ h1
  · simp_all
  · rename_i cc rr hg1 hg2 heq
    rw [List.cons.injEq] at heq
    obtain ⟨rfl, rfl⟩ := heq
    rw [hsplit]

theorem not_crlf_head (c : Char) (rest : JsString)
    (h1 : ∀ r : List Char, c = '\r' → rest = '\n' :: r → False) :
    ¬(c = '\r' ∧ rest.head? = some '\n') := by
  rintro ⟨rfl, hh⟩
  rcases rest with _ | ⟨r, t⟩
  · simp at hh
  · simp at hh
    exact h1 t rfl (by rw [hh])

theorem stripNewlinesRev_head_ne (l : JsString) :
    (stripNewlinesRev l).head? ≠ some '\n' := by
  induction l using stripNewlinesRev.induct with
  | case1 rest ih => simpa [stripNewlinesRev] using ih
  | case2 rest h ih => simpa [stripNewlinesRev] using ih
  | case3 l h1 h2 =>
      rw [stripNewlinesRev.eq_def]
      split
      · exact absurd rfl (h1 _)
      · exact absurd rfl (h2 _)
      · intro hc
        rcases l with _ | ⟨c, t⟩
        · simp at hc
        · simp at hc
          exact h2 t (by rw [hc])

theorem stripNewlinesRev_of_head_ne (l : JsString) (h : l.head? ≠ some '\n') :
    stripNewlinesRev l = l := by
  rw [stripNewlinesRev.eq_def]
  split
  · simp at h
  · simp at h
  · rfl

theorem stripNewlinesRev_nl_cons (l : JsString) (h : l.head? ≠ some '\r') :
    stripNewlinesRev ('\n' :: l) = stripNewlinesRev l := by
  rw [stripNewlinesRev.eq_def]
  split
  · rename_i rest heq
    simp only [List.cons.injEq, true_and] at heq
    rw [heq] at h
    simp at h
  · rename_i rest h1 heq
    simp only [List.cons.injEq, true_and] at heq
    rw [heq]
  · rename_i h1 h2
    exact absurd rfl (h2 _)

theorem lastChar_strip_ne_nl (s : JsString) :
    lastChar (stripTrailingNewlines s) ≠ some '\n' := by
  unfold lastChar stripTrailingNewlines
  rw [List.reverse_reverse]
  exact stripNewlinesRev_head_ne s.reverse

theorem strip_eq_self (s : JsString) (h : lastChar s ≠ some '\n') :
    stripTrailingNewlines s = s := by
  unfold stripTrailingNewlines
  rw [stripNewlinesRev_of_head_ne s.reverse h, List.reverse_reverse]

theorem lastChar_cons_ne (c : Char) (t : JsString) (h : t ≠ []) :
    lastChar (c :: t) = lastChar t := by
  unfold lastChar
  rw [List.reverse_cons]
  rcases ht : t.reverse with _ | ⟨x, xs⟩
  · exact absurd (by simpa using ht) h
  · simp

theorem lastChar_append (a b : JsString) (h : b ≠ []) :
    lastChar (a ++ b) = lastChar b := by
  unfold lastChar
  rw [List.reverse_append]
  rcases hb : b.reverse with _ | ⟨c, t⟩
  · exact absurd (by simpa using hb) h
  · simp [hb]

theorem strip_append_nl (b : JsString) (h1 : lastChar b ≠ some '\n')
    (h2 : lastChar b ≠ some '\r') :
    stripTrailingNewlines (b ++ ['\n']) = b := by
  unfold stripTrailingNewlines
  rw [List.reverse_append]
  simp only [List.reverse_cons, List.reverse_nil, List.nil_append, List.singleton_append]
  rw [stripNewlinesRev_nl_cons b.reverse h2, stripNewlinesRev_of_head_ne b.reverse h1,
    List.reverse_reverse]

theorem lastChar_eq_none_iff (s : JsString) : lastChar s = none ↔ s = [] := by
  unfold lastChar
  rw [List.head?_eq_none_iff, List.reverse_eq_nil_iff]

theorem endsWithNewline_false_of (s : JsString) (h : lastChar s ≠ some '\n') :
    endsWithNewline s = false := by
  unfold endsWithNewline
  simpa using h

theorem endsWithNewline_append_nl (b : JsString) :
    endsWithNewline (b ++ ['\n']) = true := by
  unfold endsWithNewline
  rw [lastChar_append b ['\n'] (by simp)]
  rfl

theorem nl_not_mem_of_mem_split (s : JsString) :
    ∀ l ∈ splitOnNewlines s, '\n' ∉ l := by
  induction s using splitOnNewlines.induct with
  | case1 => simp [splitOnNewlines]
  | case2 rest ih => simpa [splitOnNewlines] using ih
  | case3 rest ih => simpa [splitOnNewlines] using ih
  | case4 c rest h1 h2 hsplit ih => exact absurd hsplit (splitOnNewlines_ne_nil rest)
  | case5 c rest h1 h2 l ls hsplit ih =>
      rw [splitOnNewlines_default c rest (fun hc => h2 hc) (not_crlf_head c rest h1) l ls hsplit]
      intro l' hl'
      rcases List.mem_cons.mp hl' with rfl | hl'
      · intro hmem
        rcases List.mem_cons.mp hmem with hnl | hnl
        · exact h2 hnl.symm
        · exact (ih l (by rw [hsplit]; exact List.mem_cons_self l ls)) hnl
      · exact ih l' (by rw [hsplit]; exact List.mem_cons_of_mem l hl')

theorem split_of_nl_not_mem (l : JsString) (h : '\n' ∉ l) :
    splitOnNewlines l = [l] := by
  induction l with
  | nil => rfl
  | cons c rest ih =>
      have hc : c ≠ '\n' := fun hcc => h (by simp [hcc])
      have hrest : '\n' ∉ rest := fun hm => h (by simp [hm])
      have h1 : ¬(c = '\r' ∧ rest.head? = some '\n') := by
        rintro ⟨rfl, hh⟩
        rcases rest with _ | ⟨r, t⟩
        · simp at hh
        · simp at hh
          exact hrest (by simp [hh])
      rw [splitOnNewlines_default c rest hc h1 rest [] (ih hrest)]

theorem length_split_append_nl (l rest : JsString) (h : '\n' ∉ l) :
    (splitOnNewlines (l ++ '\n' :: rest)).length ≤
      1 + (splitOnNewlines rest).length := by
  induction l with
  | nil =>
      simp only [List.nil_append]
      rw [show splitOnNewlines ('\n' :: rest) = [] :: splitOnNewlines rest from rfl]
      simp
      omega
  | cons c l' ih =>
      have hc : c ≠ '\n' := fun hcc => h (by simp [hcc])
      have hl' : '\n' ∉ l' := fun hm => h (by simp [hm])
      by_cases hcr : c = '\r' ∧ l' = []
      · obtain ⟨rfl, rfl⟩ := hcr
        simp only [List.nil_append, List.singleton_append]
        rw [show splitOnNewlines ('\r' :: '\n' :: rest) = [] :: splitOnNewlines rest from rfl]
        simp
        omega
      · have h1 : ¬(c = '\r' ∧ (l' ++ '\n' :: rest).head? = some '\n') := by
          rintro ⟨rfl, hh⟩
          rcases l' with _ | ⟨x, t⟩
          · exact hcr ⟨rfl, rfl⟩
          · simp at hh
            exact hl' (by simp [hh])
        obtain ⟨m, ms, hms⟩ : ∃ m ms, splitOnNewlines (l' ++ '\n' :: rest) = m :: ms := by
          rcases he : splitOnNewlines (l' ++ '\n' :: rest) with _ | ⟨m, ms⟩
          · exact absurd he (splitOnNewlines_ne_nil _)
          · exact ⟨m, ms, rfl⟩
        rw [List.cons_append, splitOnNewlines_default c (l' ++ '\n' :: rest) hc h1 m ms hms]
        have := ih hl'
        rw [hms] at this
        simpa using this

theorem length_split_join_le (lines : List JsString)
    (h : ∀ l ∈ lines, '\n' ∉ l) (hne : lines ≠ []) :
    (splitOnNewlines (joinWithNewlines lines)).length ≤ lines.length := by
  induction lines with
  | nil => exact absurd rfl hne
  | cons l ls ih =>
      rcases ls with _ | ⟨l', ls'⟩
      · rw [show joinWithNewlines [l] = l from rfl,
          split_of_nl_not_mem l (h l (by simp))]
      · rw [show joinWithNewlines (l :: l' :: ls') = l ++ '\n' :: joinWithNewlines (l' :: ls') from rfl]
        have hstep := length_split_append_nl l (joinWithNewlines (l' :: ls')) (h l (by simp))
        have hrec := ih (fun x hx => h x (List.mem_cons_of_mem l hx)) (by simp)
        simp only [List.length_cons] at hrec ⊢
        omega

theorem getLast?_cons_of_ne_nil (a : JsString) (t : List JsString) (h : t ≠ []) :
    (a :: t).getLast? = t.getLast? := by
  rcases t with _ | ⟨b, t'⟩
  · exact absurd rfl h
  · exact List.getLast?_cons_cons

theorem split_getLast (s : JsString) (h : lastChar s ≠ some '\n') :
    ∃ ll, (splitOnNewlines s).getLast? = some ll ∧ lastChar ll = lastChar s ∧
      (s ≠ [] → ll ≠ []) := by
  induction s using splitOnNewlines.induct with
  | case1 =>
      exact ⟨[], by simp [splitOnNewlines], rfl, fun hc => absurd rfl hc⟩
  | case2 rest ih =>
      by_cases hrest : rest = []
      · subst hrest; simp [lastChar] at h
      · have hl : lastChar ('\r' :: '\n' :: rest) = lastChar rest := by
          rw [lastChar_cons_ne _ _ (by simp), lastChar_cons_ne _ _ hrest]
        rw [hl] at h
        obtain ⟨ll, h1, h2, h3⟩ := ih h
        refine ⟨ll, ?_, by rw [h2, hl], fun _ => h3 hrest⟩
        rw [show splitOnNewlines ('\r' :: '\n' :: rest) = [] :: splitOnNewlines rest from rfl,
          getLast?_cons_of_ne_nil _ _ (splitOnNewlines_ne_nil rest)]
        exact h1
  | case3 rest ih =>
      by_cases hrest : rest = []
      · subst hrest; simp [lastChar] at h
      · have hl : lastChar ('\n' :: rest) = lastChar rest := lastChar_cons_ne _ _ hrest
        rw [hl] at h
        obtain ⟨ll, h1, h2, h3⟩ := ih h
        refine ⟨ll, ?_, by rw [h2, hl], fun _ => h3 hrest⟩
        rw [show splitOnNewlines ('\n' :: rest) = [] :: splitOnNewlines rest from rfl,
          getLast?_cons_of_ne_nil _ _ (splitOnNewlines_ne_nil rest)]
        exact h1
  | case4 c rest h1 h2 hsplit ih => exact absurd hsplit (splitOnNewlines_ne_nil rest)
  | case5 c rest hg1 hg2 l ls hsplit ih =>
      have hc : c ≠ '\n' := fun hcc => hg2 hcc
      have hdef := splitOnNewlines_default c rest hc (not_crlf_head c rest hg1) l ls hsplit
      by_cases hrest : rest = []
      · subst hrest
        rw [show splitOnNewlines ([] : JsString) = [[]] from rfl] at hsplit
        injection hsplit with hl0 hls0
        subst hl0; subst hls0
        refine ⟨[c], by rw [hdef]; rfl, rfl, fun _ => by simp⟩
      · have hl : lastChar (c :: rest) = lastChar rest := lastChar_cons_ne _ _ hrest
        rw [hl] at h
        obtain ⟨ll, h1, h2, h3⟩ := ih h
        have hllne : ll ≠ [] := h3 hrest
        by_cases hlsne : ls = []
        · subst hlsne
          have hlleq : ll = l := by
            rw [hsplit] at h1
            simpa using h1.symm
          subst hlleq
          refine ⟨c :: ll, by rw [hdef]; rfl, ?_, fun _ => by simp⟩
          rw [lastChar_cons_ne _ _ hllne, h2, hl]
        · refine ⟨ll, ?_, by rw [h2, hl], fun _ => hllne⟩
          rw [hdef, getLast?_cons_of_ne_nil _ _ hlsne]
          rw [hsplit, getLast?_cons_of_ne_nil _ _ hlsne] at h1
          exact h1

theorem lastChar_join (lines : List JsString) (ll : JsString)
    (h : lines.getLast? = some ll) (hne : ll ≠ []) :
    lastChar (joinWithNewlines lines) = lastChar ll := by
  induction lines with
  | nil => simp at h
  | cons l ls ih =>
      rcases ls with _ | ⟨l', ls'⟩
      · simp at h
        subst h
        rfl
      · rw [getLast?_cons_of_ne_nil _ _ (by simp)] at h
        have hIH := ih h
        have hJne : joinWithNewlines (l' :: ls') ≠ [] := by
          intro hnil
          rw [hnil] at hIH
          exact hne ((lastChar_eq_none_iff ll).mp hIH.symm)
        rw [show joinWithNewlines (l :: l' :: ls') = l ++ '\n' :: joinWithNewlines (l' :: ls') from rfl,
          lastChar_append _ _ (by simp), lastChar_cons_ne _ _ hJne]
        exact hIH

theorem getLast?_drop_of_lt (ls : List JsString) (k : Nat) (h : k < ls.length) :
    (ls.drop k).getLast? = ls.getLast? := by
  induction ls generalizing k with
  | nil => simp at h
  | cons a t ih =>
      rcases k with _ | k'
      · rfl
      · have hk : k' < t.length := by simpa using h
        have htne : t ≠ [] := by
          intro hnil
          rw [hnil] at hk
          simp at hk
        rw [List.drop_succ_cons, ih k' hk, getLast?_cons_of_ne_nil _ _ htne]

theorem mem_infix_join (lines : List JsString) (l : JsString) (h : l ∈ lines) :
    l <:+: joinWithNewlines lines := by
  induction lines with
  | nil => simp at h
  | cons x ls ih =>
      rcases ls with _ | ⟨x', ls'⟩
      · simp at h
        subst h
        exact List.infix_refl l
      · rcases List.mem_cons.mp h with rfl | h'
        · exact ⟨[], '\n' :: joinWithNewlines (x' :: ls'), rfl⟩
        · have hi := ih h'
          refine hi.trans ?_
          refine ⟨x ++ ['\n'], [], ?_⟩
          rw [show joinWithNewlines (x :: x' :: ls') = x ++ '\n' :: joinWithNewlines (x' :: ls') from rfl]
          simp

/-! ### Unfolding the trim into its two branches -/

/-- The single newline re-appended by the trim when the input ended with
one (src/index.js lines 227 and 229). -/
def newlineTail (s : JsString) : JsString :=
  if endsWithNewline s then ['\n'] else []

theorem trim_nil (n : Nat) : trimToLastNLines [] n = [] := rfl

theorem trim_eq_of_le (s : JsString) (n : Nat)
    (hle : (splitOnNewlines (stripTrailingNewlines s)).length ≤ n) :
    trimToLastNLines s n = stripTrailingNewlines s ++ newlineTail s := by
  by_cases hs : s = []
  · subst hs
    rfl
  · unfold trimToLastNLines newlineTail
    rw [if_neg hs, if_pos hle]
    cases hb : endsWithNewline s <;> simp [hb]

theorem trim_eq_of_gt (s : JsString) (n : Nat)
    (hgt : n < (splitOnNewlines (stripTrailingNewlines s)).length) :
    trimToLastNLines s n =
      joinWithNewlines
        ((splitOnNewlines (stripTrailingNewlines s)).drop
          ((splitOnNewlines (stripTrailingNewlines s)).length - n)) ++
      newlineTail s := by
  by_cases hs : s = []
  · subst hs
    rw [trim_nil]
    rw [show stripTrailingNewlines ([] : JsString) = [] from rfl] at hgt ⊢
    rw [show splitOnNewlines ([] : JsString) = [[]] from rfl] at hgt ⊢
    have hn0 : n = 0 := by
      simp only [List.length_cons, List.length_nil] at hgt
      omega
    subst hn0
    rfl
  · unfold trimToLastNLines newlineTail
    rw [if_neg hs, if_neg (by omega)]
    cases hb : endsWithNewline s <;> simp [hb]

/-! ### Fixed points of the trim -/

theorem trim_fixed_of_not_nl (b : JsString) (n : Nat)
    (hb : lastChar b ≠ some '\n')
    (hle : (splitOnNewlines b).length ≤ n) :
    trimToLastNLines b n = b := by
  have hst : stripTrailingNewlines b = b := strip_eq_self b hb
  rw [trim_eq_of_le b n (by rw [hst]; exact hle)]
  unfold newlineTail
  rw [endsWithNewline_false_of b hb, hst]
  simp

theorem trim_fixed_append_nl (b : JsString) (n : Nat)
    (hb1 : lastChar b ≠ some '\n') (hb2 : lastChar b ≠ some '\r')
    (hle : (splitOnNewlines b).length ≤ n) :
    trimToLastNLines (b ++ ['\n']) n = b ++ ['\n'] := by
  have hst : stripTrailingNewlines (b ++ ['\n']) = b := strip_append_nl b hb1 hb2
  rw [trim_eq_of_le _ n (by rw [hst]; exact hle)]
  unfold newlineTail
  rw [endsWithNewline_append_nl, hst]
  simp

/-- The facts about the joined retained lines needed by the idempotence and
trailing-newline analyses: when actual trimming happens the joined result
ends with the stripped buffer's last character and re-splits into at most
`n` lines. -/
theorem out_facts (st : JsString) (n : Nat)
    (hstnl : lastChar st ≠ some '\n') (hn : 1 ≤ n)
    (hgt : n < (splitOnNewlines st).length) :
    lastChar
        (joinWithNewlines
          ((splitOnNewlines st).drop ((splitOnNewlines st).length - n))) =
      lastChar st ∧
    (splitOnNewlines
        (joinWithNewlines
          ((splitOnNewlines st).drop ((splitOnNewlines st).length - n)))).length ≤ n := by
  have hstne : st ≠ [] := by
    intro hnil
    rw [hnil, show splitOnNewlines ([] : JsString) = [[]] from rfl] at hgt
    simp at hgt
    omega
  obtain ⟨ll, hgl, hlc, hnem⟩ := split_getLast st hstnl
  have hllne : ll ≠ [] := hnem hstne
  set ls := splitOnNewlines st with hls
  have hdroplt : ls.length - n < ls.length := by omega
  have hretlast : (ls.drop (ls.length - n)).getLast? = some ll := by
    rw [getLast?_drop_of_lt ls _ hdroplt]
    exact hgl
  have hretlen : (ls.drop (ls.length - n)).length = n := by
    rw [List.length_drop]
    omega
  have hretne : ls.drop (ls.length - n) ≠ [] := by
    intro hnil
    rw [hnil] at hretlen
    simp at hretlen
    omega
  constructor
  · rw [lastChar_join _ ll hretlast hllne, hlc]
  · have := length_split_join_le (ls.drop (ls.length - n))
      (fun l hl => nl_not_mem_of_mem_split st l (List.drop_subset _ ls hl)) hretne
    omega


/-! ### Further helpers: all-newline buffers, trailing-newline shape,
stream-fold invariant, signal latch -/

theorem stripNewlinesRev_all_nl (l : JsString) (h : ∀ c ∈ l, c = '\n') :
    stripNewlinesRev l = [] := by
  induction l using stripNewlinesRev.induct with
  | case1 rest ih =>
      have : ('\r' : Char) = '\n' := h '\r' (by simp)
      simp at this
  | case2 rest hg ih =>
      rw [show stripNewlinesRev ('\n' :: rest) = stripNewlinesRev rest from by
        rw [stripNewlinesRev.eq_def]
        split
        · rename_i r heq
          simp only [List.cons.injEq, true_and] at heq
          rw [heq]
          exact absurd heq (fun hh => hg r hh)
        · rename_i r hg2 heq
          simp only [List.cons.injEq, true_and] at heq
          rw [heq]
        · rename_i hg1 hg2
          exact absurd rfl (hg2 _)]
      exact ih (fun c hc => h c (List.mem_cons_of_mem _ hc))
  | case3 l h1 h2 =>
      rcases l with _ | ⟨c, t⟩
      · rfl
      · have hc : c = '\n' := h c (by simp)
        exact absurd (by rw [hc]) (fun hh => h2 t hh)

theorem strip_all_nl (s : JsString) (h : ∀ c ∈ s, c = '\n') :
    stripTrailingNewlines s = [] := by
  unfold stripTrailingNewlines
  rw [stripNewlinesRev_all_nl s.reverse (fun c hc => h c (by simpa using hc))]
  rfl

theorem lastChar_all_nl (s : JsString) (hne : s ≠ []) (h : ∀ c ∈ s, c = '\n') :
    lastChar s = some '\n' := by
  unfold lastChar
  rcases hr : s.reverse with _ | ⟨c, t⟩
  · exact absurd (by simpa using hr) hne
  · have hc : c ∈ s := by
      rw [← List.mem_reverse, hr]
      simp
    rw [List.head?_cons, h c hc]

/-- Every trim result is a string not ending in LF followed by the
re-appended tail. -/
theorem trim_decompose (s : JsString) (n : Nat) :
    ∃ b, trimToLastNLines s n = b ++ newlineTail s ∧ endsWithNewline b = false := by
  by_cases hs : s = []
  · subst hs
    exact ⟨[], rfl, rfl⟩
  · by_cases hle : (splitOnNewlines (stripTrailingNewlines s)).length ≤ n
    · exact ⟨stripTrailingNewlines s, trim_eq_of_le s n hle,
        endsWithNewline_false_of _ (lastChar_strip_ne_nl s)⟩
    · have hgt : n < (splitOnNewlines (stripTrailingNewlines s)).length := by omega
      by_cases hn0 : n = 0
      · subst hn0
        refine ⟨joinWithNewlines
          ((splitOnNewlines (stripTrailingNewlines s)).drop
            ((splitOnNewlines (stripTrailingNewlines s)).length - 0)),
          trim_eq_of_gt s 0 hgt, ?_⟩
        rw [Nat.sub_zero, List.drop_length]
        rfl
      · have hn : 1 ≤ n := by omega
        obtain ⟨hoc, _⟩ := out_facts (stripTrailingNewlines s) n (lastChar_strip_ne_nl s) hn hgt
        refine ⟨_, trim_eq_of_gt s n hgt, ?_⟩
        apply endsWithNewline_false_of
        rw [hoc]
        exact lastChar_strip_ne_nl s

theorem endsWithNewline_of_suffix_nn (r : JsString) (h : ['\n','\n'] <:+ r) :
    endsWithNewline r = true := by
  obtain ⟨t, ht⟩ := h
  rw [← ht]
  unfold endsWithNewline
  rw [lastChar_append t ['\n','\n'] (by simp)]
  rfl

/-- No trim result ends with two LF characters. -/
theorem trim_no_double_nl (s : JsString) (n : Nat) :
    ¬ ['\n','\n'] <:+ trimToLastNLines s n := by
  obtain ⟨b, heq, hb⟩ := trim_decompose s n
  rw [heq]
  intro hsuf
  unfold newlineTail at hsuf
  by_cases he : endsWithNewline s = true
  · rw [if_pos he] at hsuf
    obtain ⟨t, ht⟩ := hsuf
    have ht' : (t ++ ['\n']) ++ ['\n'] = b ++ ['\n'] := by
      rw [← ht]
      simp
    have hb' : t ++ ['\n'] = b := List.append_cancel_right ht'
    rw [← hb', endsWithNewline_append_nl] at hb
    simp at hb
  · rw [if_neg he, List.append_nil] at hsuf
    rw [endsWithNewline_of_suffix_nn b hsuf] at hb
    simp at hb

theorem countNewlineMatches_append (a b : JsString) :
    countNewlineMatches (a ++ b) = countNewlineMatches a + countNewlineMatches b := by
  unfold countNewlineMatches
  rw [List.filter_append, List.length_append]

/-- While a stream's total newline count stays within the limit, the data
handlers never trim, so each buffer is exactly the concatenation delivered
so far. -/
theorem streamFold_eq_full (m : Nat) (chunks : List Chunk) : ∀ bufs : Buffers,
    countNewlineMatches (bufs.stdout ++ fullStream .stdoutStream chunks) ≤ m →
    countNewlineMatches (bufs.stderr ++ fullStream .stderrStream chunks) ≤ m →
    chunks.foldl (streamStep m) bufs =
      ⟨bufs.stdout ++ fullStream .stdoutStream chunks,
       bufs.stderr ++ fullStream .stderrStream chunks⟩ := by
  induction chunks with
  | nil =>
      intro bufs h1 h2
      simp [fullStream]
  | cons c cs ih =>
      intro bufs h1 h2
      obtain ⟨tag, data⟩ := c
      cases tag
      · have hfullo : fullStream .stdoutStream (⟨.stdoutStream, data⟩ :: cs) =
            data ++ fullStream .stdoutStream cs := by
          simp [fullStream]
        have hfulle : fullStream .stderrStream (⟨.stdoutStream, data⟩ :: cs) =
            fullStream .stderrStream cs := by
          simp [fullStream]
        rw [hfullo] at h1
        rw [hfulle] at h2
        have hcnt : countNewlineMatches (bufs.stdout ++ data) ≤ m := by
          rw [countNewlineMatches_append] at h1 ⊢
          rw [countNewlineMatches_append] at h1
          omega
        have hstep : streamStep m bufs ⟨.stdoutStream, data⟩ =
            { bufs with stdout := bufs.stdout ++ data } := by
          unfold streamStep dataStep
          simp only
          rw [if_neg (by omega)]
        rw [List.foldl_cons, hstep,
          ih { bufs with stdout := bufs.stdout ++ data }
            (by simpa [List.append_assoc, countNewlineMatches_append] using h1)
            (by simpa using h2)]
        simp [hfullo, hfulle]
      · have hfullo : fullStream .stdoutStream (⟨.stderrStream, data⟩ :: cs) =
            fullStream .stdoutStream cs := by
          simp [fullStream]
        have hfulle : fullStream .stderrStream (⟨.stderrStream, data⟩ :: cs) =
            data ++ fullStream .stderrStream cs := by
          simp [fullStream]
        rw [hfullo] at h1
        rw [hfulle] at h2
        have hcnt : countNewlineMatches (bufs.stderr ++ data) ≤ m := by
          rw [countNewlineMatches_append] at h2 ⊢
          rw [countNewlineMatches_append] at h2
          omega
        have hstep : streamStep m bufs ⟨.stderrStream, data⟩ =
            { bufs with stderr := bufs.stderr ++ data } := by
          unfold streamStep dataStep
          simp only
          rw [if_neg (by omega)]
        rw [List.foldl_cons, hstep,
          ih { bufs with stderr := bufs.stderr ++ data }
            (by simpa using h1)
            (by simpa [List.append_assoc, countNewlineMatches_append] using h2)]
        simp [hfullo, hfulle]

theorem streamAll_eq_full (m : Nat) (chunks : List Chunk)
    (h1 : countNewlineMatches (fullStream .stdoutStream chunks) ≤ m)
    (h2 : countNewlineMatches (fullStream .stderrStream chunks) ≤ m) :
    streamAll m chunks =
      ⟨fullStream .stdoutStream chunks, fullStream .stderrStream chunks⟩ := by
  unfold streamAll
  rw [streamFold_eq_full m chunks ⟨[], []⟩ (by simpa using h1) (by simpa using h2)]
  simp

theorem mem_registeredSignals (g : Signal) : g ∈ registeredSignals := by
  cases g <;> simp [registeredSignals]

theorem deliverSignal_called (st : HandlerState) (g : Signal)
    (h : st.called = true) : deliverSignal st g = st := by
  unfold deliverSignal
  rw [h]
  simp

theorem foldl_deliver_called (sigs : List Signal) : ∀ st : HandlerState,
    st.called = true → sigs.foldl deliverSignal st = st := by
  induction sigs with
  | nil => intro st h; rfl
  | cons g gs ih =>
      intro st h
      rw [List.foldl_cons, deliverSignal_called st g h, ih st h]


/-! ### Claim theorems -/

/-- C2, counterexample: on the empty-string command, `run` does not throw
synchronously; being an `async function`, it returns a promise rejected
with the validation `TypeError` (so the claim's "raised to the caller
before the awaited promise is created" is false at this input, though no
spawn is attempted). -/
theorem run_invalid_not_sync_throw_cex :
    runCall (.str []) emptyOpts =
      .returnedPromise (.rejected (.typeError "run() requires a non-empty string command")) ∧
    (runCall (.str []) emptyOpts).isSyncThrow = false := by
  exact ⟨rfl, rfl⟩

/-- C2 (amended): for every command that is not a string, or is empty or
whitespace-only after trimming, `run` fails with the `TypeError` of
src/index.js line 205 delivered as a rejection of the returned promise
(`run` is an async function, so the error is not a synchronous throw), and
no subprocess spawn is attempted. -/
theorem run_invalid_rejects_before_spawn (cmd : JsValue) (opts : JsOptions)
    (h : isValidCommand cmd = false) :
    runPhase1 cmd opts = .error (.typeError "run() requires a non-empty string command") ∧
    reachesSpawn cmd opts = false ∧
    runCall cmd opts =
      .returnedPromise (.rejected (.typeError "run() requires a non-empty string command")) := by
  unfold runCall reachesSpawn runPhase1
  rw [h]
  exact ⟨rfl, rfl, rfl⟩

/-- Witness for C2 (amended) at the whitespace-only command `"\t "`. -/
theorem run_invalid_rejects_before_spawn_witness :
    isValidCommand (.str ['\t', ' ']) = false ∧
    (runPhase1 (.str ['\t', ' ']) emptyOpts =
        .error (.typeError "run() requires a non-empty string command") ∧
      reachesSpawn (.str ['\t', ' ']) emptyOpts = false ∧
      runCall (.str ['\t', ' ']) emptyOpts =
        .returnedPromise (.rejected (.typeError "run() requires a non-empty string command"))) :=
  ⟨by decide, run_invalid_rejects_before_spawn (.str ['\t', ' ']) emptyOpts (by decide)⟩

/-- C3: for every valid command the pre-spawn phase reaches the spawn
request, and the promise is settled only by `resolve` (modelled by
`resolveTerminal` being a total function): a spawn `error` event yields
`code` null, `isError` true and the underlying failure in `error`; a
`close` event with exit code `c` yields `code = c`, `isError` true iff
`c` is non-zero, and `error` null. -/
theorem run_resolves_as_data (cmd : JsValue) (opts : JsOptions) (m : Nat)
    (chunks : List Chunk) (e : SpawnError) (c : Int)
    (hv : isValidCommand cmd = true) :
    reachesSpawn cmd opts = true ∧
    runPhase1 cmd opts = .ok ⟨cmd, spawnOpts opts⟩ ∧
    (runFinal m chunks (.errorEvt e)).code = none ∧
    (runFinal m chunks (.errorEvt e)).isError = true ∧
    (runFinal m chunks (.errorEvt e)).error = some e ∧
    (runFinal m chunks (.close (some c))).code = some c ∧
    ((runFinal m chunks (.close (some c))).isError = true ↔ c ≠ 0) ∧
    (runFinal m chunks (.close (some c))).error = none := by
  refine ⟨?_, ?_, rfl, rfl, rfl, rfl, ?_, rfl⟩
  · unfold reachesSpawn runPhase1
    rw [hv]
    rfl
  · unfold runPhase1
    rw [hv]
    rfl
  · unfold runFinal resolveTerminal
    simp [bne_iff_ne]

/-- Witness for C3 at the command `"ls"`, one stdout chunk, a concrete
spawn error and the exit code 3. -/
theorem run_resolves_as_data_witness :
    isValidCommand (.str ['l', 's']) = true ∧
    (reachesSpawn (.str ['l', 's']) emptyOpts = true ∧
      runPhase1 (.str ['l', 's']) emptyOpts = .ok ⟨.str ['l', 's'], spawnOpts emptyOpts⟩ ∧
      (runFinal 10 [⟨.stdoutStream, ['h', 'i', '\n']⟩] (.errorEvt ⟨"spawn ENOENT"⟩)).code = none ∧
      (runFinal 10 [⟨.stdoutStream, ['h', 'i', '\n']⟩] (.errorEvt ⟨"spawn ENOENT"⟩)).isError = true ∧
      (runFinal 10 [⟨.stdoutStream, ['h', 'i', '\n']⟩] (.errorEvt ⟨"spawn ENOENT"⟩)).error =
        some ⟨"spawn ENOENT"⟩ ∧
      (runFinal 10 [⟨.stdoutStream, ['h', 'i', '\n']⟩] (.close (some 3))).code = some 3 ∧
      ((runFinal 10 [⟨.stdoutStream, ['h', 'i', '\n']⟩] (.close (some 3))).isError = true ↔
        (3 : Int) ≠ 0) ∧
      (runFinal 10 [⟨.stdoutStream, ['h', 'i', '\n']⟩] (.close (some 3))).error = none) :=
  ⟨by decide,
    run_resolves_as_data (.str ['l', 's']) emptyOpts 10
      [⟨.stdoutStream, ['h', 'i', '\n']⟩] ⟨"spawn ENOENT"⟩ 3 (by decide)⟩

/-- C7: the options handed to the spawn facility keep every caller field
except `maxLines` verbatim, never contain `maxLines`, and fall back to
`shell: true` and `stdio: 'pipe'` exactly when the caller omitted those
fields. -/
theorem spawn_opts_forwarding (opts : JsOptions) (k : String) (v : JsOptValue) :
    (k ≠ "maxLines" → opts k = some v → spawnOpts opts k = some v) ∧
    spawnOpts opts "maxLines" = none ∧
    (opts "shell" = none → spawnOpts opts "shell" = some (.boolean true)) ∧
    (opts "stdio" = none → spawnOpts opts "stdio" = some (.str "pipe")) := by
  refine ⟨?_, ?_, ?_, ?_⟩
  · intro hk hv
    unfold spawnOpts forwardedOpts
    rw [if_neg hk, hv]
  · unfold spawnOpts forwardedOpts defaultSpawnOpts
    simp
  · intro h
    unfold spawnOpts forwardedOpts defaultSpawnOpts
    rw [if_neg (by decide), h]
    simp
  · intro h
    unfold spawnOpts forwardedOpts defaultSpawnOpts
    rw [if_neg (by decide), h]
    simp

/-- Witness for C7 at an options object carrying only `cwd`. -/
theorem spawn_opts_forwarding_witness :
    ((("cwd" : String) ≠ "maxLines" →
        (fun k => if k = "cwd" then some (JsOptValue.str "/tmp") else none) "cwd" =
          some (.str "/tmp") →
        spawnOpts (fun k => if k = "cwd" then some (JsOptValue.str "/tmp") else none) "cwd" =
          some (.str "/tmp")) ∧
      spawnOpts (fun k => if k = "cwd" then some (JsOptValue.str "/tmp") else none) "maxLines" =
        none ∧
      ((fun k => if k = "cwd" then some (JsOptValue.str "/tmp") else none) "shell" = none →
        spawnOpts (fun k => if k = "cwd" then some (JsOptValue.str "/tmp") else none) "shell" =
          some (.boolean true)) ∧
      ((fun k => if k = "cwd" then some (JsOptValue.str "/tmp") else none) "stdio" = none →
        spawnOpts (fun k => if k = "cwd" then some (JsOptValue.str "/tmp") else none) "stdio" =
          some (.str "pipe"))) :=
  spawn_opts_forwarding (fun k => if k = "cwd" then some (JsOptValue.str "/tmp") else none)
    "cwd" (.str "/tmp")

/-- C8: delivering two or more of the three termination signals to one
registered handler runs the handler body exactly once — the per-handler
latch is set synchronously on the first delivery, and any later delivery
(same or different signal kind, including one arriving while the
callback's awaitable is pending) is a no-op. -/
theorem onexit_handler_fires_once (sigs : List Signal) (st : HandlerState)
    (g : Signal) (h2 : 2 ≤ sigs.length) :
    (deliverAll sigs).bodyRuns = 1 ∧
    (deliverAll sigs).called = true ∧
    (st.called = true → deliverSignal st g = st) := by
  refine ⟨?_, ?_, fun h => deliverSignal_called st g h⟩
  all_goals
    rcases sigs with _ | ⟨s1, rest⟩
    · simp at h2
    · unfold deliverAll
      rw [List.foldl_cons,
        show deliverSignal initialHandlerState s1 = ⟨true, 1⟩ from by
          unfold deliverSignal initialHandlerState
          rw [if_pos (mem_registeredSignals s1)]
          simp,
        foldl_deliver_called rest ⟨true, 1⟩ rfl]

/-- Witness for C8: two interrupts in a row, and a latched state absorbing
a later terminate signal. -/
theorem onexit_handler_fires_once_witness :
    2 ≤ ([Signal.sigint, Signal.sigint] : List Signal).length ∧
    ((deliverAll [Signal.sigint, Signal.sigint]).bodyRuns = 1 ∧
      (deliverAll [Signal.sigint, Signal.sigint]).called = true ∧
      ((⟨true, 1⟩ : HandlerState).called = true →
        deliverSignal ⟨true, 1⟩ .sigterm = ⟨true, 1⟩)) :=
  ⟨by decide, onexit_handler_fires_once [Signal.sigint, Signal.sigint] ⟨true, 1⟩ .sigterm (by decide)⟩

/-- C9: whatever the registered callback does — return a value, return a
resolving awaitable, throw synchronously, or return a rejecting awaitable —
the handler logs the failure (if any) without propagating it and exits the
process with status 0 unconditionally. -/
theorem onexit_callback_errors_contained (b : CbBehavior) (e : String) :
    (handlerRun b).exitStatus = 0 ∧
    (handlerRun b).raised = none ∧
    (awaitedOutcome b = .ok () → (handlerRun b).loggedError = none) ∧
    (awaitedOutcome b = .error e → (handlerRun b).loggedError = some e) := by
  cases b with
  | retValue => exact ⟨rfl, rfl, fun _ => rfl, fun h => nomatch h⟩
  | retResolved => exact ⟨rfl, rfl, fun _ => rfl, fun h => nomatch h⟩
  | throwSync e' =>
      refine ⟨rfl, rfl, ?_, ?_⟩
      · intro h
        exact nomatch h
      · intro h
        injection h with h
        rw [show handlerRun (.throwSync e') = ⟨some e', 0, none⟩ from rfl, h]
  | retRejected e' =>
      refine ⟨rfl, rfl, ?_, ?_⟩
      · intro h
        exact nomatch h
      · intro h
        injection h with h
        rw [show handlerRun (.retRejected e') = ⟨some e', 0, none⟩ from rfl, h]

/-- Witness for C9 at a rejecting callback. -/
theorem onexit_callback_errors_contained_witness :
    (handlerRun (.retRejected "boom")).exitStatus = 0 ∧
    (handlerRun (.retRejected "boom")).raised = none ∧
    (awaitedOutcome (.retRejected "boom") = .ok () →
      (handlerRun (.retRejected "boom")).loggedError = none) ∧
    (awaitedOutcome (.retRejected "boom") = .error "boom" →
      (handlerRun (.retRejected "boom")).loggedError = some "boom") :=
  onexit_callback_errors_contained (.retRejected "boom") "boom"


/-- C1, counterexample: with `maxLines: 1` and a single stdout chunk of
three lines, the in-stream retention trim (src/index.js lines 244-246)
replaces the buffer before `close` fires, so the resolved `output` is
`"c\n"`, not the complete untrimmed stream `"a\nb\nc\n"`. -/
theorem run_output_trimmed_midstream_cex :
    (runFinal 1 [⟨.stdoutStream, ['a','\n','b','\n','c','\n']⟩] (.close (some 0))).output =
      ['c','\n'] ∧
    fullStream .stdoutStream [⟨.stdoutStream, ['a','\n','b','\n','c','\n']⟩] ++
      fullStream .stderrStream [⟨.stdoutStream, ['a','\n','b','\n','c','\n']⟩] =
      ['a','\n','b','\n','c','\n'] ∧
    (runFinal 1 [⟨.stdoutStream, ['a','\n','b','\n','c','\n']⟩] (.close (some 0))).output ≠
      fullStream .stdoutStream [⟨.stdoutStream, ['a','\n','b','\n','c','\n']⟩] ++
        fullStream .stderrStream [⟨.stdoutStream, ['a','\n','b','\n','c','\n']⟩] := by
  refine ⟨by decide, by decide, by decide⟩

/-- C1 (amended): `output` is the concatenation of the in-stream retained
stdout buffer followed by the retained stderr buffer, and the close-time
trim applied to the returned `stdout`/`stderr` fields never affects it;
it equals the complete untrimmed stream concatenation whenever each
stream's newline count stays within `maxLines` (once a stream exceeds the
limit mid-stream, the retention trim also shortens `output`). -/
theorem run_output_complete_when_within_limit (m : Nat) (chunks : List Chunk)
    (t : Terminal)
    (h1 : countNewlineMatches (fullStream .stdoutStream chunks) ≤ m)
    (h2 : countNewlineMatches (fullStream .stderrStream chunks) ≤ m) :
    (runFinal m chunks t).output =
      fullStream .stdoutStream chunks ++ fullStream .stderrStream chunks ∧
    (runFinal m chunks t).output =
      (streamAll m chunks).stdout ++ (streamAll m chunks).stderr := by
  have hfull := streamAll_eq_full m chunks h1 h2
  constructor
  · unfold runFinal
    rw [hfull]
    cases t <;> rfl
  · unfold runFinal
    cases t <;> rfl

/-- Witness for C1 (amended): two in-limit chunks, one per stream. -/
theorem run_output_complete_when_within_limit_witness :
    countNewlineMatches
        (fullStream .stdoutStream
          [⟨.stdoutStream, ['a','\n']⟩, ⟨.stderrStream, ['e','\n']⟩]) ≤ 5 ∧
    countNewlineMatches
        (fullStream .stderrStream
          [⟨.stdoutStream, ['a','\n']⟩, ⟨.stderrStream, ['e','\n']⟩]) ≤ 5 ∧
    ((runFinal 5 [⟨.stdoutStream, ['a','\n']⟩, ⟨.stderrStream, ['e','\n']⟩]
          (.close (some 0))).output =
        fullStream .stdoutStream [⟨.stdoutStream, ['a','\n']⟩, ⟨.stderrStream, ['e','\n']⟩] ++
          fullStream .stderrStream [⟨.stdoutStream, ['a','\n']⟩, ⟨.stderrStream, ['e','\n']⟩] ∧
      (runFinal 5 [⟨.stdoutStream, ['a','\n']⟩, ⟨.stderrStream, ['e','\n']⟩]
          (.close (some 0))).output =
        (streamAll 5 [⟨.stdoutStream, ['a','\n']⟩, ⟨.stderrStream, ['e','\n']⟩]).stdout ++
          (streamAll 5 [⟨.stdoutStream, ['a','\n']⟩, ⟨.stderrStream, ['e','\n']⟩]).stderr) :=
  ⟨by decide, by decide,
    run_output_complete_when_within_limit 5
      [⟨.stdoutStream, ['a','\n']⟩, ⟨.stderrStream, ['e','\n']⟩]
      (.close (some 0)) (by decide) (by decide)⟩


/-- C6, counterexample: `trimToLastNLines` is not idempotent. On
`"a\r\r\n"` with N = 1 the first application yields `"a\r\n"` (the lone CR
survives the strip), but the second strips the new trailing `"\r\n"` as a
unit and yields `"a\n"`. -/
theorem trim_not_idempotent_cex :
    trimToLastNLines ['a','\r','\r','\n'] 1 = ['a','\r','\n'] ∧
    trimToLastNLines (trimToLastNLines ['a','\r','\r','\n'] 1) 1 = ['a','\n'] ∧
    trimToLastNLines (trimToLastNLines ['a','\r','\r','\n'] 1) 1 ≠
      trimToLastNLines ['a','\r','\r','\n'] 1 := by
  refine ⟨by decide, by decide, by decide⟩

/-- C6 (amended): the last-N-lines trim is idempotent for every N ≥ 1 and
every string s, except when s ends with a newline and the stripped buffer
ends with a bare CR (then the first application emits `...\r\n`, whose CR
the second application strips away as part of a CR-LF unit). -/
theorem trim_idempotent_unless_cr (s : JsString) (n : Nat) (hn : 1 ≤ n)
    (h : ¬(endsWithNewline s = true ∧
        lastChar (stripTrailingNewlines s) = some '\r')) :
    trimToLastNLines (trimToLastNLines s n) n = trimToLastNLines s n := by
  by_cases hs : s = []
  · subst hs
    rfl
  · have hstnl : lastChar (stripTrailingNewlines s) ≠ some '\n' :=
      lastChar_strip_ne_nl s
    by_cases hle : (splitOnNewlines (stripTrailingNewlines s)).length ≤ n
    · rw [trim_eq_of_le s n hle]
      by_cases hb : endsWithNewline s = true
      · have hcr : lastChar (stripTrailingNewlines s) ≠ some '\r' :=
          fun hc => h ⟨hb, hc⟩
        rw [show newlineTail s = ['\n'] from by unfold newlineTail; rw [if_pos hb]]
        exact trim_fixed_append_nl _ n hstnl hcr hle
      · rw [show newlineTail s = [] from by unfold newlineTail; rw [if_neg hb],
          List.append_nil]
        exact trim_fixed_of_not_nl _ n hstnl hle
    · have hgt : n < (splitOnNewlines (stripTrailingNewlines s)).length := by omega
      obtain ⟨hoc, holen⟩ := out_facts (stripTrailingNewlines s) n hstnl hn hgt
      rw [trim_eq_of_gt s n hgt]
      by_cases hb : endsWithNewline s = true
      · have hcr : lastChar (stripTrailingNewlines s) ≠ some '\r' :=
          fun hc => h ⟨hb, hc⟩
        rw [show newlineTail s = ['\n'] from by unfold newlineTail; rw [if_pos hb]]
        exact trim_fixed_append_nl _ n (by rw [hoc]; exact hstnl)
          (by rw [hoc]; exact hcr) holen
      · rw [show newlineTail s = [] from by unfold newlineTail; rw [if_neg hb],
          List.append_nil]
        exact trim_fixed_of_not_nl _ n (by rw [hoc]; exact hstnl) holen

/-- Witness for C6 (amended) at `"a\nb\n"` with N = 1, a CR-free input on
which actual trimming occurs. -/
theorem trim_idempotent_unless_cr_witness :
    (1 : Nat) ≤ 1 ∧
    ¬(endsWithNewline ['a','\n','b','\n'] = true ∧
        lastChar (stripTrailingNewlines ['a','\n','b','\n']) = some '\r') ∧
    trimToLastNLines (trimToLastNLines ['a','\n','b','\n'] 1) 1 =
      trimToLastNLines ['a','\n','b','\n'] 1 :=
  ⟨by decide, by decide,
    trim_idempotent_unless_cr ['a','\n','b','\n'] 1 (by decide) (by decide)⟩


/-- C4: for every string and every N ≥ 1, with L the number of lines of
the stripped buffer: when L ≤ N the trim re-emits the stripped content
unchanged (only the trailing-newline run is normalised); when L > N the
result is exactly the last N lines — the retained slice has length N and
its i-th line is line (L−N)+i of the input (0-indexed, so 1-indexed line
L−N is the last one dropped and L−N+1 the first one kept); with N = 1 only
the final line is retained. -/
theorem trim_keeps_last_n_lines (s : JsString) (n : Nat) (hn : 1 ≤ n) :
    ((splitOnNewlines (stripTrailingNewlines s)).length ≤ n →
      trimToLastNLines s n = stripTrailingNewlines s ++ newlineTail s) ∧
    (n < (splitOnNewlines (stripTrailingNewlines s)).length →
      trimToLastNLines s n =
        joinWithNewlines
          ((splitOnNewlines (stripTrailingNewlines s)).drop
            ((splitOnNewlines (stripTrailingNewlines s)).length - n)) ++
        newlineTail s ∧
      ((splitOnNewlines (stripTrailingNewlines s)).drop
          ((splitOnNewlines (stripTrailingNewlines s)).length - n)).length = n ∧
      ∀ i : Nat,
        ((splitOnNewlines (stripTrailingNewlines s)).drop
            ((splitOnNewlines (stripTrailingNewlines s)).length - n))[i]? =
          (splitOnNewlines (stripTrailingNewlines s))[
            (splitOnNewlines (stripTrailingNewlines s)).length - n + i]?) ∧
    (n = 1 → 1 < (splitOnNewlines (stripTrailingNewlines s)).length →
      ∃ ll, (splitOnNewlines (stripTrailingNewlines s)).getLast? = some ll ∧
        trimToLastNLines s 1 = ll ++ newlineTail s) := by
  refine ⟨fun hle => trim_eq_of_le s n hle, fun hgt => ?_, fun hn1 hgtL => ?_⟩
  · refine ⟨trim_eq_of_gt s n hgt, ?_, fun i => List.getElem?_drop _ _ _⟩
    rw [List.length_drop]
    omega
  · subst hn1
    have hlendrop :
        ((splitOnNewlines (stripTrailingNewlines s)).drop
          ((splitOnNewlines (stripTrailingNewlines s)).length - 1)).length = 1 := by
      rw [List.length_drop]
      omega
    rcases hd : (splitOnNewlines (stripTrailingNewlines s)).drop
        ((splitOnNewlines (stripTrailingNewlines s)).length - 1) with _ | ⟨x, t⟩
    · rw [hd] at hlendrop
      simp at hlendrop
    · rw [hd] at hlendrop
      simp at hlendrop
      have hglast : (splitOnNewlines (stripTrailingNewlines s)).getLast? = some x := by
        rw [← getLast?_drop_of_lt (splitOnNewlines (stripTrailingNewlines s))
          ((splitOnNewlines (stripTrailingNewlines s)).length - 1) (by omega), hd, hlendrop]
        rfl
      refine ⟨x, hglast, ?_⟩
      rw [trim_eq_of_gt s 1 hgtL, hd, hlendrop]
      rfl

/-- Witness for C4 at `"a\nb"` with N = 1 (two lines, one retained). -/
theorem trim_keeps_last_n_lines_witness :
    (1 : Nat) ≤ 1 ∧
    (((splitOnNewlines (stripTrailingNewlines ['a','\n','b'])).length ≤ 1 →
        trimToLastNLines ['a','\n','b'] 1 =
          stripTrailingNewlines ['a','\n','b'] ++ newlineTail ['a','\n','b']) ∧
      (1 < (splitOnNewlines (stripTrailingNewlines ['a','\n','b'])).length →
        trimToLastNLines ['a','\n','b'] 1 =
          joinWithNewlines
            ((splitOnNewlines (stripTrailingNewlines ['a','\n','b'])).drop
              ((splitOnNewlines (stripTrailingNewlines ['a','\n','b'])).length - 1)) ++
          newlineTail ['a','\n','b'] ∧
        ((splitOnNewlines (stripTrailingNewlines ['a','\n','b'])).drop
            ((splitOnNewlines (stripTrailingNewlines ['a','\n','b'])).length - 1)).length = 1 ∧
        ∀ i : Nat,
          ((splitOnNewlines (stripTrailingNewlines ['a','\n','b'])).drop
              ((splitOnNewlines (stripTrailingNewlines ['a','\n','b'])).length - 1))[i]? =
            (splitOnNewlines (stripTrailingNewlines ['a','\n','b']))[
              (splitOnNewlines (stripTrailingNewlines ['a','\n','b'])).length - 1 + i]?) ∧
      (1 = 1 → 1 < (splitOnNewlines (stripTrailingNewlines ['a','\n','b'])).length →
        ∃ ll, (splitOnNewlines (stripTrailingNewlines ['a','\n','b'])).getLast? = some ll ∧
          trimToLastNLines ['a','\n','b'] 1 = ll ++ newlineTail ['a','\n','b'])) :=
  ⟨by decide, trim_keeps_last_n_lines ['a','\n','b'] 1 (by decide)⟩


/-- C5, counterexample: when actual trimming occurs the retained lines are
re-joined with bare LF, so the CR-LF separator between the two retained
lines of `"a\r\nb\r\nc"` (N = 2) does not survive: the result is
`"b\nc"`, which contains no CR-LF at all. -/
theorem trim_crlf_cex :
    trimToLastNLines ['a','\r','\n','b','\r','\n','c'] 2 = ['b','\n','c'] ∧
    ¬ ['\r','\n'] <:+:
        trimToLastNLines ['a','\r','\n','b','\r','\n','c'] 2 := by
  refine ⟨by decide, by decide⟩

/-- C5 (amended): a buffer of pure newlines trims to the single string
`"\n"`; when no trimming occurs (L ≤ N) the stripped buffer — with every
CR-LF separator in it — survives verbatim as a prefix of the result; when
trimming occurs (L > N) each retained line, including any lone CR inside
it, appears verbatim in the result, but CR-LF separators between retained
lines are re-joined with bare LF and do not survive. -/
theorem trim_crlf_amended (s : JsString) (n : Nat) (hn : 1 ≤ n) :
    (s ≠ [] → (∀ c ∈ s, c = '\n') → trimToLastNLines s n = ['\n']) ∧
    ((splitOnNewlines (stripTrailingNewlines s)).length ≤ n →
      stripTrailingNewlines s <+: trimToLastNLines s n) ∧
    (n < (splitOnNewlines (stripTrailingNewlines s)).length →
      ∀ l ∈ (splitOnNewlines (stripTrailingNewlines s)).drop
          ((splitOnNewlines (stripTrailingNewlines s)).length - n),
        l <:+: trimToLastNLines s n) := by
  refine ⟨fun hne hall => ?_, fun hle => ?_, fun hgt l hl => ?_⟩
  · have hst : stripTrailingNewlines s = [] := strip_all_nl s hall
    have hend : endsWithNewline s = true := by
      unfold endsWithNewline
      rw [lastChar_all_nl s hne hall]
      rfl
    have hle1 : (splitOnNewlines (stripTrailingNewlines s)).length ≤ n := by
      rw [hst, show splitOnNewlines ([] : JsString) = [[]] from rfl]
      simpa using hn
    rw [trim_eq_of_le s n hle1, hst,
      show newlineTail s = ['\n'] from by unfold newlineTail; rw [if_pos hend]]
    rfl
  · rw [trim_eq_of_le s n hle]
    exact List.prefix_append _ _
  · rw [trim_eq_of_gt s n hgt]
    exact (mem_infix_join _ l hl).trans (List.prefix_append _ _).isInfix

/-- Witness for C5 (amended) at `"a\r\nb"` with N = 1. -/
theorem trim_crlf_amended_witness :
    (1 : Nat) ≤ 1 ∧
    ((['a','\r','\n','b'] ≠ ([] : List Char) →
        (∀ c ∈ ['a','\r','\n','b'], c = '\n') →
        trimToLastNLines ['a','\r','\n','b'] 1 = ['\n']) ∧
      ((splitOnNewlines (stripTrailingNewlines ['a','\r','\n','b'])).length ≤ 1 →
        stripTrailingNewlines ['a','\r','\n','b'] <+:
          trimToLastNLines ['a','\r','\n','b'] 1) ∧
      (1 < (splitOnNewlines (stripTrailingNewlines ['a','\r','\n','b'])).length →
        ∀ l ∈ (splitOnNewlines (stripTrailingNewlines ['a','\r','\n','b'])).drop
            ((splitOnNewlines (stripTrailingNewlines ['a','\r','\n','b'])).length - 1),
          l <:+: trimToLastNLines ['a','\r','\n','b'] 1)) :=
  ⟨by decide, trim_crlf_amended ['a','\r','\n','b'] 1 (by decide)⟩

/-- C10, counterexample: a result resolved through the spawn `error` event
carries the raw buffers (src/index.js lines 264-271), so its `stdout`
field can end with two newline characters — the claimed "for every
resolved RunResult" bound fails on the error path. -/
theorem run_error_path_trailing_newlines_cex :
    (runFinal 10 [⟨.stdoutStream, ['a','\n','\n']⟩]
        (.errorEvt ⟨"spawn ENOENT"⟩)).stdout = ['a','\n','\n'] ∧
    ['\n','\n'] <:+
      (runFinal 10 [⟨.stdoutStream, ['a','\n','\n']⟩]
        (.errorEvt ⟨"spawn ENOENT"⟩)).stdout := by
  refine ⟨by decide, by decide⟩

/-- C10 (amended): the trim collapses every trailing newline run to a
single LF even when the line count is within the limit — a trimmed string
never ends with two LF characters, and the trim is not the identity on any
input ending with two or more newlines; consequently the `stdout`/`stderr`
fields of a result resolved via the `close` event end with at most one
newline character. (A result resolved via the spawn `error` event carries
the raw buffers, which may end with several newlines.) -/
theorem trim_single_trailing_newline (s : JsString) (n maxL : Nat)
    (chunks : List Chunk) (c : Option Int) :
    (endsWithNewline s = true →
      ∃ b, trimToLastNLines s n = b ++ ['\n'] ∧ endsWithNewline b = false) ∧
    ¬ ['\n','\n'] <:+ trimToLastNLines s n ∧
    (['\n','\n'] <:+ s → trimToLastNLines s n ≠ s) ∧
    ¬ ['\n','\n'] <:+ (runFinal maxL chunks (.close c)).stdout ∧
    ¬ ['\n','\n'] <:+ (runFinal maxL chunks (.close c)).stderr := by
  refine ⟨fun hend => ?_, trim_no_double_nl s n, fun hsuf heq => ?_, ?_, ?_⟩
  · obtain ⟨b, heq, hb⟩ := trim_decompose s n
    refine ⟨b, ?_, hb⟩
    rw [heq, show newlineTail s = ['\n'] from by unfold newlineTail; rw [if_pos hend]]
  · rw [← heq] at hsuf
    exact trim_no_double_nl s n hsuf
  · exact trim_no_double_nl (streamAll maxL chunks).stdout maxL
  · exact trim_no_double_nl (streamAll maxL chunks).stderr maxL

/-- Witness for C10 (amended) at `"x\n\n"`, N = 5, and a close-resolved
run with one three-newline stdout chunk. -/
theorem trim_single_trailing_newline_witness :
    ((endsWithNewline ['x','\n','\n'] = true →
        ∃ b, trimToLastNLines ['x','\n','\n'] 5 = b ++ ['\n'] ∧
          endsWithNewline b = false) ∧
      ¬ ['\n','\n'] <:+ trimToLastNLines ['x','\n','\n'] 5 ∧
      (['\n','\n'] <:+ ['x','\n','\n'] →
        trimToLastNLines ['x','\n','\n'] 5 ≠ ['x','\n','\n']) ∧
      ¬ ['\n','\n'] <:+
          (runFinal 3 [⟨.stdoutStream, ['a','\n','\n','\n']⟩] (.close (some 0))).stdout ∧
      ¬ ['\n','\n'] <:+
          (runFinal 3 [⟨.stdoutStream, ['a','\n','\n','\n']⟩] (.close (some 0))).stderr) :=
  trim_single_trailing_newline ['x','\n','\n'] 5 3
    [⟨.stdoutStream, ['a','\n','\n','\n']⟩] (some 0)

end Maker
